import Mathlib

/-!
Verification development for the efftesting repository.

The core of the repository is the `efft` package together with its
`internal` helper package: an expectation-testing framework whose rewriter
(`Replacer`) records new expectation strings per source location and
rewrites the literal `want` arguments of `Effect`/`FatalEffect` call sites.

This file gives a shallow embedding of the relevant functions:

* Go strings are modelled as `List Char` where character-level reasoning is
  needed (`makelit`, `Detab`) and as `String` elsewhere.  All delimiters
  involved (newline, tab, backquote, carriage return) are ASCII, so
  byte-level Go semantics and char-level list semantics agree for every
  operation used here.
* Go maps used by the rewriter are modelled as association lists; the code
  only observes them through lookup, insert-if-absent, delete, emptiness
  and a sorted projection of the keys, so list order never leaks.
* The file system is modelled as an association list from file names to
  either an unparsable blob or a parsed list of statements.
-/

namespace Efft

/-- The backquote character (the Go raw-string delimiter). -/
def bq : Char := Char.ofNat 96

/-- `strings.Repeat("\t", n)`: the indentation string used by `makelit`. -/
def tabs (n : Nat) : List Char := List.replicate n '\t'

/-- `strings.Split(s, "\n")` on the char-list model.  Splitting an empty
string yields `[[]]`, and every newline separates two (possibly empty)
pieces, exactly as in Go. -/
def splitNL : List Char → List (List Char)
  | [] => [[]]
  | c :: cs =>
    let r := splitNL cs
    if c = '\n' then [] :: r
    else (c :: r.headD []) :: r.tail

/-- `strings.Join(ss, "\n")` on the char-list model. -/
def joinNL : List (List Char) → List Char
  | [] => []
  | [l] => l
  | l :: ls => l ++ '\n' :: joinNL ls

/-- Fuel-indexed scanner for `strings.ReplaceAll` with a nonempty pattern
`p :: pt`: scan left to right, replace each non-overlapping occurrence of
the pattern by `rep` and resume after it.  The fuel only makes the
recursion structural; `goReplaceAll` below always supplies enough. -/
def replaceAllAux (p : Char) (pt rep : List Char) : Nat → List Char → List Char
  | _, [] => []
  | 0, c :: cs => c :: cs
  | fuel + 1, c :: cs =>
    if p = c ∧ pt <+: cs then rep ++ replaceAllAux p pt rep fuel (cs.drop pt.length)
    else c :: replaceAllAux p pt rep fuel cs

/-- `strings.ReplaceAll(s, pattern, rep)` for the nonempty pattern
`p :: pt` (the rewriter only ever replaces nonempty patterns). -/
def goReplaceAll (p : Char) (pt rep s : List Char) : List Char :=
  replaceAllAux p pt rep s.length s

/-- The run of leading tab characters, as counted by the loop
`for indent < len(s) && s[indent] == '\t'` in `Detab`. -/
def leadingTabs : List Char → Nat
  | [] => 0
  | c :: r => if c = '\t' then leadingTabs r + 1 else 0

/-- `strings.TrimPrefix(s, "\n")`. -/
def trimNL : List Char → List Char
  | '\n' :: r => r
  | s => s

/-- `internal.Detab` from the current `internal` package (the variant
without `TrimRight`): if `s` starts with a newline, strip the uniform
`"\n" + tabs` indentation prefix from every line and drop the leading
newline; otherwise return `s` unchanged.  `s[:indent]` is exactly
`'\n' :: rest.take (leadingTabs rest)`. -/
def Detab (s : List Char) : List Char :=
  match s with
  | '\n' :: rest =>
    trimNL (goReplaceAll '\n' (rest.take (leadingTabs rest)) ['\n'] ('\n' :: rest))
  | s => s

/-- A Go string literal emitted by `makelit`: either a `%q`-quoted
single-line string (held here by its value) or a backquoted raw block
(held here by the text between the backquotes). -/
inductive Lit where
  | quoted (value : List Char)
  | raw (inner : List Char)
deriving DecidableEq

/-- The loop body of `makelit` for indices `i > 0`: indent every
non-empty line, leave genuinely empty lines alone. -/
def indentRest (ind : List Char) : List (List Char) → List (List Char)
  | [] => []
  | l :: ls => (if l = [] then l else ind ++ l) :: indentRest ind ls

/-- The loop of `makelit`: the first line (`i == 0`) is always indented,
later lines only when non-empty. -/
def indentAll (ind : List Char) : List (List Char) → List (List Char)
  | [] => []
  | l :: ls => (ind ++ l) :: indentRest ind ls

/-- The last step of `makelit` in the current `internal` package: if the
last (already indented) line is empty, replace it by the full indentation
string so that the closing backquote lands there. -/
def fixLast (ind : List Char) : List (List Char) → List (List Char)
  | [] => []
  | [l] => [if l = [] then ind else l]
  | l :: ls => l :: fixLast ind ls

/-- The text between the backquotes of the raw block `makelit` builds:
`fmt.Sprintf("\x60\n%s\x60", strings.Join(ss, "\n"))`. -/
def makelitInner (s : List Char) (indent : Nat) : List Char :=
  '\n' :: joinNL (fixLast (tabs indent) (indentAll (tabs indent) (splitNL s)))

/-- `internal.makelit` (current variant): quoted form when the text has no
newline or contains a backquote, otherwise an indented raw block. -/
def makelit (s : List Char) (indent : Nat) : Lit :=
  if '\n' ∉ s ∨ bq ∈ s then .quoted s
  else .raw (makelitInner s indent)

/-- Go's evaluation of the literal that `makelit` emitted, i.e. the string
value the compiler reads back from the rewritten source.  A `%q`-quoted
literal evaluates to exactly the quoted value; a raw (backquoted) literal
evaluates to its inner text with carriage returns discarded (Go spec:
carriage returns inside raw string literals are dropped). -/
def evalLit : Lit → List Char
  | .quoted v => v
  | .raw inner => inner.filter (fun c => c ≠ '\r')

/-- The last line of a string, in the `strings.Split(s, "\n")` sense. -/
def lastLineOf (s : List Char) : List Char :=
  (splitNL s).getLastD []

/-- Proof-layer characterization (not itself a translation of source
code): the text `makelit` emits after the first line for the remaining
lines `ls`, each preceded by its separating newline; provably equal to the
`fixLast ind (indentRest ind ls)` part of `makelitInner`, see `emit_eq`
below. -/
def emitTail (ind : List Char) : List (List Char) → List Char
  | [] => []
  | [l] => '\n' :: (if l = [] then ind else ind ++ l)
  | l :: ls => '\n' :: ((if l = [] then [] else ind ++ l) ++ emitTail ind ls)

/-- `internal.Location`: a line in a file; the file name is absolute. -/
structure Location where
  fname : String
  line : Nat
deriving DecidableEq

/-- `internal.Replacer`: the pending replacement texts per location plus
the set of incomplete locations.  The two Go maps are modelled as
association lists; the mutex only serializes access and has no observable
effect in this sequential model. -/
structure Replacer where
  replacements : List (Location × String)
  incomplete : List Location
deriving DecidableEq

/-- Lookup in the association-list model of a Go map. -/
def lookupA : List (Location × String) → Location → Option String
  | [], _ => none
  | (k, v) :: t, loc => if k = loc then some v else lookupA t loc

/-- `delete(m, loc)` on the association-list model of a Go map. -/
def eraseA : List (Location × String) → Location → List (Location × String)
  | [], _ => []
  | (k, v) :: t, loc => if k = loc then eraseA t loc else (k, v) :: eraseA t loc

/-- `Replacer.Replace`: mark the caller's location (here an explicit
argument standing for the `runtime.Caller(2)` result) to be replaced with
`newstr`.  If the location is already recorded, return the zero `Location`
and change nothing; otherwise mark it incomplete and record the text. -/
def Replace (r : Replacer) (loc : Location) (newstr : String) : Replacer × Location :=
  match lookupA r.replacements loc with
  | some _ => (r, ⟨"", 0⟩)
  | none =>
    (⟨r.replacements ++ [(loc, newstr)],
      if loc ∈ r.incomplete then r.incomplete else r.incomplete ++ [loc]⟩, loc)

/-- The statement shapes `Replacer.Apply`'s `ast.Inspect` callback
distinguishes: an expression statement that is a selector call
`x.funcname(...)`, possibly wrapped as `x.funcname(...).Equals(lit)`
(`want = some lit`), or any other statement. -/
inductive StmtKind where
  | call (funcname : String) (want : Option Lit)
  | plain (text : String)
deriving DecidableEq

/-- One statement of a parsed file, with the position data `Apply` reads
off the file set (`pos.Line` and `pos.Column` of the call). -/
structure MStmt where
  line : Nat
  col : Nat
  kind : StmtKind
deriving DecidableEq

/-- A file as seen through `parser.ParseFile`: either malformed source
(parse error) or the list of its statements. -/
inductive GoFile where
  | unparsable
  | ast (stmts : List MStmt)
deriving DecidableEq

/-- The file system: file names to contents. -/
def FS : Type := List (String × GoFile)

/-- Reading a file from the model file system. -/
def lookupFS : FS → String → Option GoFile
  | [], _ => none
  | (k, v) :: t, fname => if k = fname then some v else lookupFS t fname

/-- `os.WriteFile` on the model file system (create or overwrite). -/
def setFS : FS → String → GoFile → FS
  | [], fname, g => [(fname, g)]
  | (k, v) :: t, fname, g => if k = fname then (k, g) :: t else (k, v) :: setFS t fname g

/-- The `ast.Inspect` traversal of `Replacer.Apply`: walk the statements
in source order; for every recognized marker call whose location is
pending and whose (inner) function name is `Effect` or `FatalEffect`,
delete the location from the pending map and replace the call's literal
argument by `makelit(repl, pos.Column)`.  Returns the rewritten statement
list and the remaining pending map. -/
def inspectStmts (fname : String) : List MStmt → List (Location × String) →
    List MStmt × List (Location × String)
  | [], r => ([], r)
  | st :: rest, r =>
    match st.kind with
    | .plain _ =>
      let p := inspectStmts fname rest r
      (st :: p.1, p.2)
    | .call fn _ =>
      match lookupA r ⟨fname, st.line⟩ with
      | none =>
        let p := inspectStmts fname rest r
        (st :: p.1, p.2)
      | some repl =>
        if fn = "Effect" ∨ fn = "FatalEffect" then
          let p := inspectStmts fname rest (eraseA r ⟨fname, st.line⟩)
          (⟨st.line, st.col, .call fn (some (makelit repl.data st.col))⟩ :: p.1, p.2)
        else
          let p := inspectStmts fname rest r
          (st :: p.1, p.2)

/-- Insert into a sorted list of naturals. -/
def insertNat (n : Nat) : List Nat → List Nat
  | [] => [n]
  | m :: ms => if n ≤ m then n :: m :: ms else m :: insertNat n ms

/-- `slices.Sort` on a list of naturals (insertion sort; `slices.Sort` is
characterized by producing the sorted permutation of its input, which is
unique, so any correct sort models it). -/
def sortNat : List Nat → List Nat
  | [] => []
  | n :: ns => insertNat n (sortNat ns)

/-- `filepath.Base`: the last element of the path after dropping trailing
slashes; `"/"` for the root, `"."` for the empty path. -/
def baseNameL (s : List Char) : String :=
  match (s.splitOn '/').filter (· ≠ []) with
  | [] => if s.head? = some '/' then "/" else "."
  | parts => String.mk (parts.getLastD [])

/-- `filepath.Base` on strings. -/
def baseName (s : String) : String := baseNameL s.data

/-- The errors `Replacer.Apply` can return, as structured values:
`efft.ParseSource` wraps a parse (or open) failure, and
`efft.ReplacementsFailed` names the base name of the file and the sorted
line numbers still pending after the traversal. -/
inductive ApplyErr where
  | parseSource
  | replacementsFailed (file : String) (lines : List Nat)
deriving DecidableEq

/-- `Replacer.Apply`: apply the stored replacements to `fname`.  If the
pending map is empty, do nothing.  Otherwise parse the file (failing on
missing or malformed files), run the traversal, and afterwards: if any
pending locations remain, return `efft.ReplacementsFailed` with the base
file name and the sorted lines of all remaining locations, leaving the
file system untouched; otherwise format the rewritten tree and write it
back.  (`inspectErr` of the source is never assigned, so the traversal
itself cannot fail; `format.Node` and `os.WriteFile` cannot fail in the
model file system.) -/
def Apply (fs : FS) (r : Replacer) (fname : String) : FS × Replacer × Option ApplyErr :=
  if r.replacements = [] then (fs, r, none)
  else
    match lookupFS fs fname with
    | none => (fs, r, some .parseSource)
    | some .unparsable => (fs, r, some .parseSource)
    | some (.ast stmts) =>
      let p := inspectStmts fname stmts r.replacements
      if p.2 ≠ [] then
        (fs, ⟨p.2, r.incomplete⟩,
          some (.replacementsFailed (baseName fname) (sortNat (p.2.map fun q => q.1.line))))
      else
        (setFS fs fname (.ast p.1), ⟨p.2, r.incomplete⟩, none)

/-- A Go value passed to the `efft` canonicalizer, covering the dynamic
shapes `Stringify`/`stringify1` dispatch on: strings, integers, booleans,
non-nil errors -- either plain (`err`, held by its `Error()` message, like
the `fmt.Errorf` values of the tests) or additionally implementing
`fmt.Stringer` (`errStringer`, with `Error() = msg` and
`String() = repr`) -- the nil interface, and slices (`[]any`).
(Non-error `fmt.Stringer` implementors, `[]byte` and floats are omitted
from the value model; no type-switch branch distinguishes behavior the
claims depend on for them, and the JSON fallback rendering of an
arbitrary Stringer is determined by data outside its interface.) -/
inductive GoVal where
  | str (s : String)
  | int (n : Int)
  | bool (b : Bool)
  | err (msg : String)
  | errStringer (msg repr : String)
  | null
  | list (l : List GoVal)

/-- One hex digit, lower case, as produced by Go's JSON encoder. -/
def hexDigit (n : Nat) : Char :=
  if n < 10 then Char.ofNat (48 + n) else Char.ofNat (87 + n)

/-- JSON string escaping as done by `encoding/json` (which also escapes
`<`, `>` and `&` for HTML safety). -/
def jsonEscape : List Char → List Char
  | [] => []
  | c :: cs =>
    (if c = '"' then ['\\', '"']
     else if c = '\\' then ['\\', '\\']
     else if c = '\n' then ['\\', 'n']
     else if c = '\t' then ['\\', 't']
     else if c = '\r' then ['\\', 'r']
     else if c.toNat < 32 ∨ c = '<' ∨ c = '>' ∨ c = '&' then
       ['\\', 'u', '0', '0', hexDigit (c.toNat / 16), hexDigit (c.toNat % 16)]
     else [c]) ++ jsonEscape cs

/-- A JSON string literal for `s`. -/
def jsonQuote (s : String) : String :=
  String.mk ('"' :: jsonEscape s.data ++ ['"'])

mutual
/-- `json.MarshalIndent(v, "", "  ")` at nesting depth `d`: the rendering
`stringify1` falls back to.  `encoding/json` ignores the `error` and
`fmt.Stringer` interfaces; the error values of this model carry no
exported fields (like `fmt.Errorf`'s `*errorString`), so both error
shapes marshal to the empty object. -/
def goJson (d : Nat) : GoVal → String
  | .null => "null"
  | .bool true => "true"
  | .bool false => "false"
  | .int n => toString n
  | .str s => jsonQuote s
  | .err _ => "\x7b\x7d"
  | .errStringer _ _ => "\x7b\x7d"
  | .list [] => "[]"
  | .list (v :: vs) =>
    let pad := String.mk (List.replicate (2 * (d + 1)) ' ')
    let closepad := String.mk (List.replicate (2 * d) ' ')
    "[\n" ++ pad ++ String.intercalate (",\n" ++ pad) (goJsonItems (d + 1) (v :: vs)) ++
      "\n" ++ closepad ++ "]"

/-- The renderings of the elements of a slice. -/
def goJsonItems (d : Nat) : List GoVal → List String
  | [] => []
  | v :: vs => goJson d v :: goJsonItems d vs
end

/-- `efft.stringify1`: a human-readable string for one value.  Dispatch
order follows the source: the `fmt.Stringer` check comes FIRST, so an
error that also implements `String()` yields its `String()` value, not
its message; the error check comes second and yields the message; then
strings are verbatim, numbers use their decimal form, and everything else
falls back to `json.MarshalIndent(v, "", "  ")`. -/
def stringify1 : GoVal → String
  | .errStringer _ repr => repr
  | .err m => m
  | .str s => s
  | .int n => toString n
  | v => goJson 0 v

/-- `efft.Stringify`: canonicalize an argument list.  With no arguments
the result is empty; with one, `stringify1` of it.  With several, the
last argument decides: a `false` tail renders the whole list as a
sequence; a `true` tail is elided (keeping just the first value when only
two were given); a non-nil error tail (of either error shape) renders
only `stringify1` of that error; a nil tail is elided the same way as
`true`; any other tail renders the whole list. -/
def Stringify : List GoVal → String
  | [] => ""
  | [a] => stringify1 a
  | a :: b :: rest =>
    match rest.getLastD b with
    | .bool v =>
      if v = false then stringify1 (.list (a :: b :: rest))
      else if rest.length = 0 then stringify1 a
      else stringify1 (.list (a :: b :: rest).dropLast)
    | .err m => stringify1 (.err m)
    | .errStringer m repr => stringify1 (.errStringer m repr)
    | .null =>
      if rest.length = 0 then Stringify [a]
      else stringify1 (.list (a :: b :: rest).dropLast)
    | _ => stringify1 (.list (a :: b :: rest))
termination_by l => l.length
decreasing_by simp

/-- The externally visible actions of the `Init` cleanup in the `efft`
package, in program order: a `t.Errorf` report, starting the self-exec
rewriter child with its environment marker, streaming one replacement
record to the child's standard input, waiting for a child, and
propagating an exit status.  (The last two constructors exist so that
their absence from the cleanup's trace is expressible.) -/
inductive Effect where
  | errorf (msg : String)
  | startChild (env : String)
  | stream (loc : Location) (text : String)
  | waitChild
  | propagateExit (code : Nat)
deriving DecidableEq

/-- The state the `Init` cleanup closure reads: the update-mode flag, the
pipe presence (`rewriterPipe != nil`), and the two maps of the default
replacer. -/
structure CleanupState where
  updatemode : Bool
  pipeExists : Bool
  incomplete : List Location
  replacements : List (Location × String)

/-- The `t.Cleanup` body registered by `efft.Init`, as the list of its
observable actions.  It reports incomplete and wrong expectations, and in
update mode with pending replacements it starts the rewriter child (once)
and streams every record to it -- and then returns. -/
def cleanupTrace (st : CleanupState) : List Effect :=
  let e1 : List Effect :=
    if st.updatemode = false ∧ 0 < st.incomplete.length then
      [.errorf ("efft.IncompleteExpectations: run with EFFUP=1 envvar to complete them")]
    else if 0 < st.incomplete.length then
      [.errorf ("efft.IncompleteExpectations: will update them at end")]
    else []
  let e2 : List Effect :=
    if st.updatemode = false ∧ st.incomplete.length < st.replacements.length then
      [.errorf ("efft.WrongExpectations: run with EFFUP=1 envvar to fix them")]
    else if st.incomplete.length < st.replacements.length then
      [.errorf ("efft.WrongExpectations: will update them at end")]
    else []
  if st.updatemode = false ∨ st.replacements.length = 0 then e1 ++ e2
  else
    e1 ++ e2 ++
      (if st.pipeExists then [] else [.startChild ("EFFTESTING_REWRITE=1")]) ++
      st.replacements.map fun p => .stream p.1 p.2

/-! ## Splitting and joining on newlines -/

theorem splitNL_ne_nil (s : List Char) : splitNL s ≠ [] := by
  cases s with
  | nil => simp [splitNL]
  | cons c cs => simp only [splitNL]; split_ifs <;> simp

theorem joinNL_cons (l : List Char) (ls : List (List Char)) (h : ls ≠ []) :
    joinNL (l :: ls) = l ++ '\n' :: joinNL ls := by
  cases ls with
  | nil => exact absurd rfl h
  | cons a as => rfl

theorem splitNL_cons_of_ne (c : Char) (cs : List Char) (h : c ≠ '\n') (a : List Char)
    (as : List (List Char)) (ha : splitNL cs = a :: as) :
    splitNL (c :: cs) = (c :: a) :: as := by
  simp [splitNL, h, ha]

theorem splitNL_dest (cs : List Char) : ∃ a as, splitNL cs = a :: as := by
  cases hcs : splitNL cs with
  | nil => exact absurd hcs (splitNL_ne_nil cs)
  | cons a as => exact ⟨a, as, rfl⟩

theorem joinNL_splitNL (s : List Char) : joinNL (splitNL s) = s := by
  induction s with
  | nil => rfl
  | cons c cs ih =>
    by_cases h : c = '\n'
    · subst h
      rw [show splitNL ('\n' :: cs) = [] :: splitNL cs from by simp [splitNL]]
      rw [joinNL_cons _ _ (splitNL_ne_nil cs)]
      simp [ih]
    · obtain ⟨a, as, ha⟩ := splitNL_dest cs
      rw [splitNL_cons_of_ne c cs h a as ha]
      rw [ha] at ih
      cases as with
      | nil =>
        show joinNL [c :: a] = c :: cs
        have ha2 : joinNL [a] = a := rfl
        simp only [joinNL] at ih ⊢
        simp [ih]
      | cons b bs =>
        rw [joinNL_cons _ _ (by simp)]
        rw [joinNL_cons _ _ (by simp)] at ih
        rw [List.cons_append, ih]

theorem splitNL_no_nl (s : List Char) : ∀ l ∈ splitNL s, '\n' ∉ l := by
  induction s with
  | nil =>
    intro l hl
    simp [splitNL] at hl
    simp [hl]
  | cons c cs ih =>
    intro l hl
    by_cases h : c = '\n'
    · subst h
      rw [show splitNL ('\n' :: cs) = [] :: splitNL cs from by simp [splitNL]] at hl
      rcases List.mem_cons.1 hl with hl | hl
      · simp [hl]
      · exact ih l hl
    · obtain ⟨a, as, ha⟩ := splitNL_dest cs
      rw [splitNL_cons_of_ne c cs h a as ha] at hl
      rcases List.mem_cons.1 hl with hl | hl
      · subst hl
        intro hmem
        rcases List.mem_cons.1 hmem with he | hmem
        · exact h he.symm
        · exact ih a (ha ▸ List.mem_cons_self a as) hmem
      · exact ih l (ha ▸ List.mem_cons_of_mem a hl)

theorem splitNL_two (s : List Char) (h : '\n' ∈ s) :
    ∃ l r, splitNL s = l :: r ∧ r ≠ [] := by
  induction s with
  | nil => simp at h
  | cons c cs ih =>
    by_cases hc : c = '\n'
    · subst hc
      exact ⟨[], splitNL cs, by simp [splitNL], splitNL_ne_nil cs⟩
    · have hcs : '\n' ∈ cs := by
        rcases List.mem_cons.1 h with he | hcs
        · exact absurd he.symm hc
        · exact hcs
      obtain ⟨l, r, hsp, hr⟩ := ih hcs
      exact ⟨c :: l, r, splitNL_cons_of_ne c cs hc l r hsp, hr⟩

theorem splitNL_single (l : List Char) (h : '\n' ∉ l) : splitNL l = [l] := by
  induction l with
  | nil => rfl
  | cons c cs ih =>
    have hc : c ≠ '\n' := fun he => h (he ▸ List.mem_cons_self c cs)
    have hcs : '\n' ∉ cs := fun hm => h (List.mem_cons_of_mem c hm)
    exact splitNL_cons_of_ne c cs hc cs [] (ih hcs)

theorem splitNL_chunk (l t : List Char) (h : '\n' ∉ l) :
    splitNL (l ++ '\n' :: t) = l :: splitNL t := by
  induction l with
  | nil => simp [splitNL]
  | cons c cs ih =>
    have hc : c ≠ '\n' := fun he => h (he ▸ List.mem_cons_self c cs)
    have hcs : '\n' ∉ cs := fun hm => h (List.mem_cons_of_mem c hm)
    rw [List.cons_append]
    exact splitNL_cons_of_ne c _ hc cs (splitNL t) (ih hcs)

theorem split_join (ls : List (List Char)) (hnl : ∀ l ∈ ls, '\n' ∉ l) (hne : ls ≠ []) :
    splitNL (joinNL ls) = ls := by
  induction ls with
  | nil => exact absurd rfl hne
  | cons l ls ih =>
    cases ls with
    | nil => exact splitNL_single l (hnl l (List.mem_cons_self l []))
    | cons b bs =>
      rw [joinNL_cons _ _ (by simp), splitNL_chunk _ _ (hnl l (List.mem_cons_self l _))]
      rw [ih (fun x hx => hnl x (List.mem_cons_of_mem l hx)) (by simp)]

/-! ## The `ReplaceAll` scanner -/

theorem raux_irrel (p : Char) (pt rep : List Char) :
    ∀ f1 f2 s, s.length ≤ f1 → s.length ≤ f2 →
      replaceAllAux p pt rep f1 s = replaceAllAux p pt rep f2 s := by
  intro f1
  induction f1 with
  | zero =>
    intro f2 s h1 _
    have hs : s = [] := List.eq_nil_of_length_eq_zero (Nat.le_zero.1 h1)
    subst hs
    cases f2 <;> rfl
  | succ g ih =>
    intro f2 s h1 h2
    cases s with
    | nil => cases f2 <;> rfl
    | cons c cs =>
      cases f2 with
      | zero => simp at h2
      | succ g2 =>
        simp only [replaceAllAux]
        have hcs1 : cs.length ≤ g := Nat.lt_succ_iff.1 h1
        have hcs2 : cs.length ≤ g2 := Nat.lt_succ_iff.1 h2
        by_cases hc : p = c ∧ pt <+: cs
        · rw [if_pos hc, if_pos hc]
          congr 1
          exact ih g2 (cs.drop pt.length)
            (le_trans (by simp) hcs1)
            (le_trans (by simp) hcs2)
        · rw [if_neg hc, if_neg hc]
          congr 1
          exact ih g2 cs hcs1 hcs2

theorem gra_skip (p c : Char) (pt rep cs : List Char) (h : ¬(p = c ∧ pt <+: cs)) :
    goReplaceAll p pt rep (c :: cs) = c :: goReplaceAll p pt rep cs := by
  simp only [goReplaceAll, List.length_cons, replaceAllAux, if_neg h]

theorem gra_match (p : Char) (pt rep t : List Char) :
    goReplaceAll p pt rep (p :: pt ++ t) = rep ++ goReplaceAll p pt rep t := by
  have h1 : (p :: pt ++ t).length = (pt ++ t).length + 1 := by simp
  simp only [goReplaceAll, List.cons_append, h1, replaceAllAux]
  rw [if_pos (show True ∧ pt <+: pt.append t from ⟨trivial, List.prefix_append pt t⟩)]
  rw [show List.drop pt.length (pt.append t) = t from List.drop_left pt t]
  congr 1
  exact raux_irrel p pt rep _ _ t (by simp) le_rfl

theorem gra_seg (p : Char) (pt rep l t : List Char) (h : ∀ c ∈ l, c ≠ p) :
    goReplaceAll p pt rep (l ++ t) = l ++ goReplaceAll p pt rep t := by
  induction l with
  | nil => simp
  | cons c cs ih =>
    have hc : ¬(p = c ∧ pt <+: (cs ++ t)) := fun hpc =>
      (h c (List.mem_cons_self c cs)) hpc.1.symm
    rw [List.cons_append, gra_skip p c pt rep _ hc,
      ih (fun x hx => h x (List.mem_cons_of_mem c hx)), List.cons_append]

/-! ## The shape of the raw block `makelit` emits -/

theorem indentRest_ne_nil (ind : List Char) (ls : List (List Char)) (h : ls ≠ []) :
    indentRest ind ls ≠ [] := by
  cases ls with
  | nil => exact absurd rfl h
  | cons l ls => simp [indentRest]

theorem fixLast_ne_nil (ind : List Char) (ls : List (List Char)) (h : ls ≠ []) :
    fixLast ind ls ≠ [] := by
  cases ls with
  | nil => exact absurd rfl h
  | cons l ls => cases ls <;> simp [fixLast]

theorem fixLast_cons (ind l : List Char) (ls : List (List Char)) (h : ls ≠ []) :
    fixLast ind (l :: ls) = l :: fixLast ind ls := by
  cases ls with
  | nil => exact absurd rfl h
  | cons a as => rfl

theorem emit_eq (ind : List Char) (ls : List (List Char)) (h : ls ≠ []) :
    '\n' :: joinNL (fixLast ind (indentRest ind ls)) = emitTail ind ls := by
  induction ls with
  | nil => exact absurd rfl h
  | cons l ls ih =>
    cases ls with
    | nil =>
      by_cases hl : l = []
      · simp [indentRest, fixLast, emitTail, hl, joinNL]
      · simp [indentRest, fixLast, emitTail, hl, joinNL, List.append_eq_nil]
    | cons b bs =>
      have h1 : indentRest ind (b :: bs) ≠ [] := indentRest_ne_nil ind _ (by simp)
      rw [show indentRest ind (l :: b :: bs) =
          (if l = [] then l else ind ++ l) :: indentRest ind (b :: bs) from rfl]
      rw [fixLast_cons _ _ _ h1, joinNL_cons _ _ (fixLast_ne_nil _ _ h1)]
      rw [show emitTail ind (l :: b :: bs) =
          '\n' :: ((if l = [] then [] else ind ++ l) ++ emitTail ind (b :: bs)) from rfl]
      rw [← ih (by simp)]
      by_cases hl : l = [] <;> simp [hl]

theorem emitTail_head (ind : List Char) (ls : List (List Char)) (h : ls ≠ []) :
    ∃ y, emitTail ind ls = '\n' :: y := by
  cases ls with
  | nil => exact absurd rfl h
  | cons l ls => cases ls <;> exact ⟨_, rfl⟩

theorem tabs_not_pref (n : Nat) (hn : 1 ≤ n) (y : List Char) :
    ¬ (tabs n <+: '\n' :: y) := by
  intro h
  obtain ⟨t, ht⟩ := h
  cases n with
  | zero => omega
  | succ m =>
    rw [tabs, List.replicate_succ, List.cons_append] at ht
    have : '\t' = '\n' := (List.cons.injEq _ _ _ _ ▸ ht).1
    exact absurd this (by decide)

theorem gra_emitTail (n : Nat) (hn : 1 ≤ n) :
    ∀ ls, ls ≠ [] → (∀ l ∈ ls, '\n' ∉ l) →
      goReplaceAll '\n' (tabs n) ['\n'] (emitTail (tabs n) ls) = '\n' :: joinNL ls := by
  intro ls
  induction ls with
  | nil => intro h; exact absurd rfl h
  | cons l ls ih =>
    intro _ hnl
    have hlnl : '\n' ∉ l := hnl l (List.mem_cons_self l ls)
    have hlne : ∀ c ∈ l, c ≠ '\n' := fun c hc he => hlnl (he ▸ hc)
    cases ls with
    | nil =>
      by_cases hl : l = []
      · subst hl
        rw [show emitTail (tabs n) [[]] = '\n' :: tabs n from by simp [emitTail]]
        have h2 : goReplaceAll '\n' (tabs n) ['\n'] ('\n' :: tabs n) = ['\n'] := by
          have h5 := gra_match '\n' (tabs n) ['\n'] []
          simp only [List.append_nil] at h5
          rw [h5]
          simp [goReplaceAll, replaceAllAux]
        rw [h2]
        simp [joinNL]
      · rw [show emitTail (tabs n) [l] = '\n' :: tabs n ++ l from by simp [emitTail, hl]]
        rw [gra_match]
        have h3 : goReplaceAll '\n' (tabs n) ['\n'] l = l := by
          have h4 := gra_seg '\n' (tabs n) ['\n'] l [] hlne
          simpa [goReplaceAll, replaceAllAux] using h4
        rw [h3]
        simp [joinNL]
    | cons b bs =>
      have hrest : ∀ x ∈ b :: bs, '\n' ∉ x := fun x hx => hnl x (List.mem_cons_of_mem l hx)
      by_cases hl : l = []
      · subst hl
        rw [show emitTail (tabs n) ([] :: b :: bs) = '\n' :: emitTail (tabs n) (b :: bs)
          from by simp [emitTail]]
        obtain ⟨y, hy⟩ := emitTail_head (tabs n) (b :: bs) (by simp)
        rw [hy, gra_skip _ _ _ _ _ (fun hpc => tabs_not_pref n hn y hpc.2), ← hy]
        rw [ih (by simp) hrest, joinNL_cons ([] : List Char) (b :: bs) (by simp)]
        simp
      · rw [show emitTail (tabs n) (l :: b :: bs) =
            '\n' :: tabs n ++ (l ++ emitTail (tabs n) (b :: bs)) from by simp [emitTail, hl]]
        rw [gra_match, gra_seg _ _ _ l _ hlne, ih (by simp) hrest]
        rw [joinNL_cons l (b :: bs) (by simp)]
        simp

/-! ## Membership facts used for the carriage-return filter -/

theorem mem_indentRest (ind : List Char) (ls : List (List Char)) :
    ∀ y ∈ indentRest ind ls, ∃ l ∈ ls, y = ind ++ l ∨ y = l := by
  induction ls with
  | nil => intro y hy; simp [indentRest] at hy
  | cons l ls ih =>
    intro y hy
    rw [show indentRest ind (l :: ls) =
        (if l = [] then l else ind ++ l) :: indentRest ind ls from rfl] at hy
    rcases List.mem_cons.1 hy with hy | hy
    · refine ⟨l, List.mem_cons_self l ls, ?_⟩
      by_cases hl : l = []
      · rw [if_pos hl] at hy
        exact Or.inr hy
      · rw [if_neg hl] at hy
        exact Or.inl hy
    · obtain ⟨x, hx, hcase⟩ := ih y hy
      exact ⟨x, List.mem_cons_of_mem l hx, hcase⟩

theorem mem_indentAll (ind : List Char) (ls : List (List Char)) :
    ∀ y ∈ indentAll ind ls, ∃ l ∈ ls, y = ind ++ l ∨ y = l := by
  intro y hy
  cases ls with
  | nil => simp [indentAll] at hy
  | cons l ls =>
    rw [show indentAll ind (l :: ls) = (ind ++ l) :: indentRest ind ls from rfl] at hy
    rcases List.mem_cons.1 hy with hy | hy
    · exact ⟨l, List.mem_cons_self l ls, Or.inl hy⟩
    · obtain ⟨x, hx, hcase⟩ := mem_indentRest ind ls y hy
      exact ⟨x, List.mem_cons_of_mem l hx, hcase⟩

theorem mem_fixLast (ind : List Char) (ls : List (List Char)) :
    ∀ y ∈ fixLast ind ls, y = ind ∨ y ∈ ls := by
  induction ls with
  | nil => intro y hy; simp [fixLast] at hy
  | cons l ls ih =>
    intro y hy
    cases ls with
    | nil =>
      rw [show fixLast ind [l] = [if l = [] then ind else l] from rfl] at hy
      have hy2 := List.mem_singleton.1 hy
      by_cases hl : l = []
      · rw [if_pos hl] at hy2
        exact Or.inl hy2
      · rw [if_neg hl] at hy2
        exact Or.inr (hy2 ▸ List.mem_cons_self l [])
    | cons b bs =>
      rw [fixLast_cons _ _ _ (by simp)] at hy
      rcases List.mem_cons.1 hy with hy | hy
      · exact Or.inr (hy ▸ List.mem_cons_self l _)
      · rcases ih y hy with h | h
        · exact Or.inl h
        · exact Or.inr (List.mem_cons_of_mem l h)

theorem mem_splitNL_chars (s : List Char) : ∀ l ∈ splitNL s, ∀ c ∈ l, c ∈ s := by
  induction s with
  | nil =>
    intro l hl c hc
    simp [splitNL] at hl
    subst hl
    simp at hc
  | cons a cs ih =>
    intro l hl c hc
    by_cases ha : a = '\n'
    · subst ha
      rw [show splitNL ('\n' :: cs) = [] :: splitNL cs from by simp [splitNL]] at hl
      rcases List.mem_cons.1 hl with hl | hl
      · subst hl; simp at hc
      · exact List.mem_cons_of_mem _ (ih l hl c hc)
    · obtain ⟨x, xs, hx⟩ := splitNL_dest cs
      rw [splitNL_cons_of_ne a cs ha x xs hx] at hl
      rcases List.mem_cons.1 hl with hl | hl
      · subst hl
        rcases List.mem_cons.1 hc with hc | hc
        · exact hc ▸ List.mem_cons_self a cs
        · exact List.mem_cons_of_mem _ (ih x (hx ▸ List.mem_cons_self x xs) c hc)
      · exact List.mem_cons_of_mem _ (ih l (hx ▸ List.mem_cons_of_mem x hl) c hc)

theorem mem_joinNL (ls : List (List Char)) :
    ∀ c ∈ joinNL ls, c = '\n' ∨ ∃ l ∈ ls, c ∈ l := by
  induction ls with
  | nil => intro c hc; simp [joinNL] at hc
  | cons l ls ih =>
    intro c hc
    cases ls with
    | nil =>
      right
      exact ⟨l, List.mem_cons_self l [], hc⟩
    | cons b bs =>
      rw [joinNL_cons _ _ (by simp)] at hc
      rcases List.mem_append.1 hc with hc | hc
      · exact Or.inr ⟨l, List.mem_cons_self l _, hc⟩
      · rcases List.mem_cons.1 hc with hc | hc
        · exact Or.inl hc
        · rcases ih c hc with h | ⟨x, hx, hcx⟩
          · exact Or.inl h
          · exact Or.inr ⟨x, List.mem_cons_of_mem l hx, hcx⟩

theorem makelitInner_no_cr (s : List Char) (n : Nat) (h : '\r' ∉ s) :
    (makelitInner s n).filter (fun c => c ≠ '\r') = makelitInner s n := by
  rw [List.filter_eq_self]
  intro a ha
  simp only [ne_eq, decide_not, Bool.not_eq_eq_eq_not, Bool.not_true, decide_eq_false_iff_not]
  intro hacr
  subst hacr
  rcases List.mem_cons.1 ha with hcr | hcr
  · exact absurd hcr (by decide)
  · rcases mem_joinNL _ _ hcr with hcr | ⟨y, hy, hcy⟩
    · exact absurd hcr (by decide)
    · rcases mem_fixLast _ _ y hy with hyy | hyy
      · rw [hyy] at hcy
        rw [tabs, List.mem_replicate] at hcy
        exact absurd hcy.2 (by decide)
      · obtain ⟨l, hl, hcase⟩ := mem_indentAll _ _ y hyy
        rcases hcase with hcase | hcase
        · rw [hcase] at hcy
          rcases List.mem_append.1 hcy with hcy | hcy
          · rw [tabs, List.mem_replicate] at hcy
            exact absurd hcy.2 (by decide)
          · exact h (mem_splitNL_chars s l hl _ hcy)
        · exact h (mem_splitNL_chars s l hl _ (hcase ▸ hcy))

/-! ## Leading-tab counting -/

theorem leadingTabs_eq (n : Nat) (z : List Char) (hz : z.head? ≠ some '\t') :
    leadingTabs (tabs n ++ z) = n := by
  induction n with
  | zero =>
    cases z with
    | nil => rfl
    | cons c cs =>
      have hc : c ≠ '\t' := fun he => hz (by simp [he])
      simp [tabs, leadingTabs, hc]
  | succ m ih =>
    rw [tabs, List.replicate_succ, List.cons_append]
    rw [show leadingTabs ('\t' :: (List.replicate m '\t' ++ z)) =
        leadingTabs (List.replicate m '\t' ++ z) + 1 from by simp [leadingTabs]]
    rw [show (List.replicate m '\t' : List Char) = tabs m from rfl, ih]

theorem take_tabs (n : Nat) (z : List Char) : (tabs n ++ z).take n = tabs n :=
  List.take_left' (by simp [tabs])

/-! ## The round trip for the raw-block form -/

theorem detab_round_raw (s : List Char) (n : Nat) (hn : 1 ≤ n)
    (hnl : '\n' ∈ s) (hbq : bq ∉ s) (hcr : '\r' ∉ s)
    (hfl : ((splitNL s).headD []).head? ≠ some '\t') :
    Detab (evalLit (makelit s n)) = s := by
  have hml : makelit s n = .raw (makelitInner s n) := by
    rw [makelit, if_neg]
    push_neg
    exact ⟨hnl, hbq⟩
  rw [hml, show evalLit (.raw (makelitInner s n)) =
      (makelitInner s n).filter (fun c => c ≠ '\r') from rfl]
  rw [makelitInner_no_cr s n hcr]
  obtain ⟨l0, rest, hsp, hrest⟩ := splitNL_two s hnl
  have hnl0 : '\n' ∉ l0 := splitNL_no_nl s l0 (hsp ▸ List.mem_cons_self l0 rest)
  have hl0ne : ∀ c ∈ l0, c ≠ '\n' := fun c hc he => hnl0 (he ▸ hc)
  have hrestnl : ∀ x ∈ rest, '\n' ∉ x := fun x hx =>
    splitNL_no_nl s x (hsp ▸ List.mem_cons_of_mem l0 hx)
  have hpieces : makelitInner s n = '\n' :: (tabs n ++ (l0 ++ emitTail (tabs n) rest)) := by
    rw [makelitInner, hsp]
    rw [show indentAll (tabs n) (l0 :: rest) =
        (tabs n ++ l0) :: indentRest (tabs n) rest from rfl]
    rw [fixLast_cons _ _ _ (indentRest_ne_nil _ _ hrest)]
    rw [joinNL_cons _ _ (fixLast_ne_nil _ _ (indentRest_ne_nil _ _ hrest))]
    rw [← emit_eq _ rest hrest]
    simp
  rw [hpieces]
  have hzhead : (l0 ++ emitTail (tabs n) rest).head? ≠ some '\t' := by
    cases l0 with
    | nil =>
      obtain ⟨y, hy⟩ := emitTail_head (tabs n) rest hrest
      simp [hy]
    | cons c cl =>
      have hc : c ≠ '\t' := by
        rw [hsp] at hfl
        simpa using hfl
      simp [hc]
  rw [show Detab ('\n' :: (tabs n ++ (l0 ++ emitTail (tabs n) rest))) =
      trimNL (goReplaceAll '\n'
        ((tabs n ++ (l0 ++ emitTail (tabs n) rest)).take
          (leadingTabs (tabs n ++ (l0 ++ emitTail (tabs n) rest))))
        ['\n'] ('\n' :: (tabs n ++ (l0 ++ emitTail (tabs n) rest)))) from rfl]
  rw [leadingTabs_eq n _ hzhead, take_tabs]
  rw [show ('\n' :: (tabs n ++ (l0 ++ emitTail (tabs n) rest))) =
      '\n' :: tabs n ++ (l0 ++ emitTail (tabs n) rest) from by simp]
  rw [gra_match, gra_seg _ _ _ l0 _ hl0ne, gra_emitTail n hn rest hrest hrestnl]
  have hjoin : l0 ++ '\n' :: joinNL rest = s := by
    rw [← joinNL_cons _ _ hrest, ← hsp]
    exact joinNL_splitNL s
  simp [trimNL, hjoin]

/-! ## The round trip for the quoted form, and claim C3 -/

theorem detab_round_quoted (s : List Char) (n : Nat)
    (hq : '\n' ∉ s ∨ bq ∈ s) (hhead : s.head? ≠ some '\n') :
    Detab (evalLit (makelit s n)) = s := by
  rw [makelit, if_pos hq]
  show Detab s = s
  cases s with
  | nil => rfl
  | cons c cs =>
    have hc : c ≠ '\n' := fun he => hhead (by simp [he])
    rw [Detab.eq_def]
    split
    · rename_i rest heq
      injection heq with h1 h2
      exact absurd h1 hc
    · rfl

/-- Claim C3, counterexample: the round trip fails as universally stated.
For the replacement text `"\ta\nb"` (whose first line begins with a tab) at
call-site column 1, `makelit` emits a raw block whose decoded value after
`Detab` is `"a\n\tb"`, not the original text: `Detab`'s prefix scan counts
the first line's own tab into the indentation pattern, so the first line
loses its tab while the second line keeps its indentation. -/
theorem c3_counterexample :
    Detab (evalLit (makelit (['\t', 'a', '\n', 'b'] : List Char) 1)) =
      ['a', '\n', '\t', 'b']
  ∧ Detab (evalLit (makelit (['\t', 'a', '\n', 'b'] : List Char) 1)) ≠
      (['\t', 'a', '\n', 'b'] : List Char) :=
  ⟨by decide, by decide⟩

/-- Claim C3 as amended: for every replacement text `X` and positive
call-site column, encoding with `makelit` and decoding via Go literal
evaluation followed by `Detab` yields exactly `X`, provided that (a) when
the literal takes the quoted form (no newline in `X`, or `X` contains a
backquote) `X` does not begin with a newline, and (b) when it takes the
raw-block form (`X` is multi-line without backquotes) the first line of
`X` does not begin with a tab and `X` contains no carriage return (which a
raw literal cannot represent). -/
theorem c3_roundtrip_amended (s : List Char) (n : Nat) (hn : 1 ≤ n)
    (hq : ('\n' ∉ s ∨ bq ∈ s) → s.head? ≠ some '\n')
    (hr : '\n' ∈ s → bq ∉ s →
      ((splitNL s).headD []).head? ≠ some '\t' ∧ '\r' ∉ s) :
    Detab (evalLit (makelit s n)) = s := by
  by_cases h : '\n' ∉ s ∨ bq ∈ s
  · exact detab_round_quoted s n h (hq h)
  · push_neg at h
    obtain ⟨h1, h2⟩ := h
    obtain ⟨h3, h4⟩ := hr h1 h2
    exact detab_round_raw s n hn h1 h2 h4 h3

theorem c3_witness :
    (1 ≤ 1) ∧ Detab (evalLit (makelit (['a', '\n', 'b'] : List Char) 1)) = ['a', '\n', 'b'] :=
  ⟨le_rfl, c3_roundtrip_amended ['a', '\n', 'b'] 1 le_rfl (by decide) (by decide)⟩

/-! ## The last line of the raw block, and claim C6 -/

theorem getLast_cons_ne {α : Type} (a : α) (t : List α) (h : t ≠ []) :
    (a :: t).getLast? = t.getLast? := by
  cases t with
  | nil => exact absurd rfl h
  | cons b bs => exact List.getLast?_cons_cons

theorem indentRest_getLast (ind : List Char) :
    ∀ ls l, ls.getLast? = some l →
      (indentRest ind ls).getLast? = some (if l = [] then [] else ind ++ l) := by
  intro ls
  induction ls with
  | nil => intro l h; simp at h
  | cons a as ih =>
    intro l h
    cases as with
    | nil =>
      have ha : a = l := by simpa using h
      subst ha
      rw [show indentRest ind [a] = [if a = [] then a else ind ++ a] from rfl]
      by_cases hl : a = [] <;> simp [hl]
    | cons b bs =>
      have h2 : (b :: bs).getLast? = some l := by
        rw [← h]; exact List.getLast?_cons_cons.symm
      rw [show indentRest ind (a :: b :: bs) =
          (if a = [] then a else ind ++ a) :: indentRest ind (b :: bs) from rfl]
      rw [getLast_cons_ne _ _ (indentRest_ne_nil ind _ (by simp))]
      exact ih l h2

theorem fixLast_getLast (ind : List Char) :
    ∀ ls l, ls.getLast? = some l →
      (fixLast ind ls).getLast? = some (if l = [] then ind else l) := by
  intro ls
  induction ls with
  | nil => intro l h; simp at h
  | cons a as ih =>
    intro l h
    cases as with
    | nil =>
      have ha : a = l := by simpa using h
      subst ha
      rw [show fixLast ind [a] = [if a = [] then ind else a] from rfl]
      by_cases hl : a = [] <;> simp [hl]
    | cons b bs =>
      have h2 : (b :: bs).getLast? = some l := by
        rw [← h]; exact List.getLast?_cons_cons.symm
      rw [fixLast_cons _ _ _ (by simp)]
      rw [getLast_cons_ne _ _ (fixLast_ne_nil ind _ (by simp))]
      exact ih l h2

theorem pieces_no_nl (s : List Char) (n : Nat) :
    ∀ l ∈ fixLast (tabs n) (indentAll (tabs n) (splitNL s)), '\n' ∉ l := by
  intro l hl
  rcases mem_fixLast _ _ l hl with h | h
  · rw [h, tabs]
    intro hm
    rw [List.mem_replicate] at hm
    exact absurd hm.2 (by decide)
  · obtain ⟨x, hx, hcase⟩ := mem_indentAll _ _ l h
    rcases hcase with hc | hc
    · rw [hc]
      intro hm
      rcases List.mem_append.1 hm with hm | hm
      · rw [tabs, List.mem_replicate] at hm
        exact absurd hm.2 (by decide)
      · exact splitNL_no_nl s x hx hm
    · exact hc ▸ splitNL_no_nl s x hx

theorem makelitInner_lastLine (s : List Char) (n : Nat) (hnl : '\n' ∈ s) :
    lastLineOf (makelitInner s n) =
      (if lastLineOf s = [] then tabs n else tabs n ++ lastLineOf s) := by
  obtain ⟨l0, rest, hsp, hrest⟩ := splitNL_two s hnl
  obtain ⟨lr, hlr⟩ : ∃ lr, rest.getLast? = some lr := by
    cases h2 : rest.getLast? with
    | none => exact absurd (List.getLast?_eq_none_iff.1 h2) hrest
    | some x => exact ⟨x, rfl⟩
  have hlast_s : lastLineOf s = lr := by
    rw [lastLineOf, hsp, List.getLastD_cons, List.getLastD_eq_getLast?, hlr]
    rfl
  have hIA : (indentAll (tabs n) (splitNL s)).getLast? =
      some (if lr = [] then [] else tabs n ++ lr) := by
    rw [hsp]
    rw [show indentAll (tabs n) (l0 :: rest) =
        (tabs n ++ l0) :: indentRest (tabs n) rest from rfl]
    rw [getLast_cons_ne _ _ (indentRest_ne_nil _ _ hrest)]
    exact indentRest_getLast _ rest lr hlr
  have hLSlast : (fixLast (tabs n) (indentAll (tabs n) (splitNL s))).getLast? =
      some (if lr = [] then tabs n else tabs n ++ lr) := by
    have h3 := fixLast_getLast (tabs n) _ _ hIA
    by_cases hlre : lr = []
    · simpa [hlre] using h3
    · have hne : tabs n ++ lr ≠ [] := by simp [hlre]
      simpa [hlre, hne] using h3
  have hLSne : fixLast (tabs n) (indentAll (tabs n) (splitNL s)) ≠ [] := by
    refine fixLast_ne_nil _ _ ?_
    rw [hsp]
    simp [indentAll]
  rw [lastLineOf, makelitInner]
  rw [show splitNL ('\n' :: joinNL (fixLast (tabs n) (indentAll (tabs n) (splitNL s)))) =
      [] :: splitNL (joinNL (fixLast (tabs n) (indentAll (tabs n) (splitNL s))))
    from by simp [splitNL]]
  rw [split_join _ (pieces_no_nl s n) hLSne]
  rw [List.getLastD_cons, List.getLastD_eq_getLast?, hLSlast, hlast_s]
  rfl

/-- Claim C6, counterexample: for the text `"a\n"` (last line empty) at
call-site column 2, the closing backquote's own line in the emitted raw
block is indented with the full two tabs of the body, not one level less
as the claim states. -/
theorem c6_counterexample :
    makelit (['a', '\n'] : List Char) 2 = .raw (makelitInner ['a', '\n'] 2)
  ∧ lastLineOf (makelitInner (['a', '\n'] : List Char) 2) = tabs 2
  ∧ lastLineOf (makelitInner (['a', '\n'] : List Char) 2) ≠ tabs 1 :=
  ⟨by decide, by decide, by decide⟩

/-- Claim C6 as amended: in the raw-block form, when the replacement
text's last line is empty the closing delimiter is placed on its own line
indented at the SAME level as the body (the call-site column), not one
level less; when the last line is non-empty the closing delimiter attaches
directly to that (indented) line with no added newline -- the block's last
line is the indented final text line, in particular non-empty. -/
theorem c6_last_line_amended (s : List Char) (n : Nat) (hnl : '\n' ∈ s) (hbq : bq ∉ s) :
    makelit s n = .raw (makelitInner s n)
  ∧ (lastLineOf s = [] → lastLineOf (makelitInner s n) = tabs n)
  ∧ (lastLineOf s ≠ [] →
      lastLineOf (makelitInner s n) = tabs n ++ lastLineOf s ∧
      lastLineOf (makelitInner s n) ≠ []) := by
  have h := makelitInner_lastLine s n hnl
  refine ⟨?_, ?_, ?_⟩
  · rw [makelit, if_neg]
    push_neg
    exact ⟨hnl, hbq⟩
  · intro he
    rw [h, if_pos he]
  · intro he
    rw [h, if_neg he]
    exact ⟨rfl, by simp [he]⟩

theorem c6_witness :
    ('\n' ∈ (['x', '\n'] : List Char)) ∧ (bq ∉ (['x', '\n'] : List Char)) ∧
      lastLineOf (makelitInner (['x', '\n'] : List Char) 3) = tabs 3 :=
  ⟨by decide, by decide,
    (c6_last_line_amended ['x', '\n'] 3 (by decide) (by decide)).2.1 (by decide)⟩

/-! ## Basic facts about the sorted line list -/

theorem insertNat_perm (n : Nat) (l : List Nat) : (insertNat n l).Perm (n :: l) := by
  induction l with
  | nil => rfl
  | cons m ms ih =>
    by_cases h : n ≤ m
    · simp [insertNat, h]
    · simp only [insertNat, if_neg h]
      exact (ih.cons m).trans (List.Perm.swap n m ms)

theorem sortNat_perm (l : List Nat) : (sortNat l).Perm l := by
  induction l with
  | nil => rfl
  | cons n ns ih => exact (insertNat_perm n (sortNat ns)).trans (ih.cons n)

theorem insertNat_sorted (n : Nat) (l : List Nat) (h : l.Sorted (· ≤ ·)) :
    (insertNat n l).Sorted (· ≤ ·) := by
  induction l with
  | nil => simp [insertNat]
  | cons m ms ih =>
    rw [List.sorted_cons] at h
    by_cases hnm : n ≤ m
    · rw [insertNat, if_pos hnm, List.sorted_cons]
      refine ⟨?_, List.sorted_cons.2 h⟩
      intro b hb
      rcases List.mem_cons.1 hb with hb | hb
      · exact hb ▸ hnm
      · exact le_trans hnm (h.1 b hb)
    · rw [insertNat, if_neg hnm, List.sorted_cons]
      refine ⟨?_, ih h.2⟩
      intro b hb
      have hb2 : b ∈ n :: ms := (insertNat_perm n ms).mem_iff.1 hb
      rcases List.mem_cons.1 hb2 with hb2 | hb2
      · exact hb2 ▸ le_of_lt (lt_of_not_le hnm)
      · exact h.1 b hb2

theorem sortNat_sorted (l : List Nat) : (sortNat l).Sorted (· ≤ ·) := by
  induction l with
  | nil => simp [sortNat]
  | cons n ns ih => exact insertNat_sorted n (sortNat ns) ih

/-! ## Claim theorems for the pending store and `Apply` -/

/-- Claim C10: when the pending map is empty, `Apply` returns `nil`
immediately: the result is success and the file system is untouched for
every file system whatsoever -- in particular when the named path is
missing or holds malformed source, since the file is never read. -/
theorem c10_empty_replacements_noop (fs : FS) (r : Replacer) (fname : String)
    (h : r.replacements = []) : Apply fs r fname = (fs, r, none) := by
  simp [Apply, h]

theorem c10_witness :
    (Replacer.mk [] []).replacements = [] ∧
      Apply [(("bad.go" : String), GoFile.unparsable)] ⟨[], []⟩ ("bad.go") =
        ([(("bad.go" : String), GoFile.unparsable)], ⟨[], []⟩, none) :=
  ⟨rfl, c10_empty_replacements_noop _ _ _ rfl⟩

/-- Claim C5: the first recorded replacement at a location wins.  If the
location is already present in the pending map, a later `Replace` call at
the same location returns the zero `Location` (non-acceptance), leaves the
whole replacer unchanged, and in particular keeps the stored text. -/
theorem c5_first_write_wins (r : Replacer) (loc : Location) (s0 s1 : String)
    (h : lookupA r.replacements loc = some s0) :
    Replace r loc s1 = (r, ⟨"", 0⟩) ∧
      lookupA (Replace r loc s1).1.replacements loc = some s0 := by
  simp [Replace, h]

theorem c5_witness :
    lookupA (Replacer.mk [(⟨"a.go", 3⟩, ("old"))] []).replacements ⟨"a.go", 3⟩ = some ("old") ∧
      Replace ⟨[(⟨"a.go", 3⟩, ("old"))], []⟩ ⟨"a.go", 3⟩ ("new") =
        (⟨[(⟨"a.go", 3⟩, ("old"))], []⟩, ⟨"", 0⟩) :=
  ⟨by decide, (c5_first_write_wins ⟨[(⟨"a.go", 3⟩, ("old"))], []⟩ ⟨"a.go", 3⟩ ("old") ("new")
    (by decide)).1⟩

/-- Claim C7: replacement text containing the backquote always becomes the
`%q`-quoted single-line literal, never a raw block, even when it also
contains newlines. -/
theorem c7_backquote_forces_quoted (s : List Char) (n : Nat) (h : bq ∈ s) :
    makelit s n = .quoted s := by
  simp [makelit, h]

theorem c7_witness :
    bq ∈ (['a', bq, '\n', 'b'] : List Char) ∧
      makelit (['a', bq, '\n', 'b'] : List Char) 1 = .quoted ['a', bq, '\n', 'b'] :=
  ⟨by decide, c7_backquote_forces_quoted _ 1 (by decide)⟩

/-- Claim C4, counterexample: the error row of the truth table fails for
every non-nil error as stated.  `stringify1`'s `fmt.Stringer` dispatch
precedes its error dispatch, so for an error tail whose value also
implements `String()` -- here `Error() = "SomeError"`,
`String() = "pretty"` -- `Stringify(a, err)` returns the `String()` value
`"pretty"`, not the error's message `"SomeError"`. -/
theorem c4_counterexample :
    Stringify [.str ("a"), .errStringer ("SomeError") ("pretty")] = ("pretty")
  ∧ Stringify [.str ("a"), .errStringer ("SomeError") ("pretty")] ≠ ("SomeError") := by
  constructor
  · simp [Stringify, stringify1, List.getLastD]
  · simp [Stringify, stringify1, List.getLastD]

/-- Claim C4 as amended: the tail-elision truth table of `efft.Stringify`,
with the error row split by capability: a `true` tail is elided; a
`false` tail makes the whole argument list render as a sequence; a nil
tail is elided; a non-nil error tail drops the leading value entirely and
renders as the error's message when the error does not implement
`fmt.Stringer`, but as its `String()` value when it does (the `Stringer`
dispatch precedes the error dispatch in `stringify1`); and a nil tail
after two leading values renders the two values as a sequence. -/
theorem c4_tail_elision_amended (a b : GoVal) (m repr : String) :
    Stringify [a, .bool true] = Stringify [a]
  ∧ Stringify [a, .bool false] = stringify1 (.list [a, .bool false])
  ∧ Stringify [a, .null] = Stringify [a]
  ∧ Stringify [a, .err m] = m
  ∧ Stringify [a, .errStringer m repr] = repr
  ∧ Stringify [a, b, .null] = stringify1 (.list [a, b]) := by
  refine ⟨?_, ?_, ?_, ?_, ?_, ?_⟩ <;>
    simp [Stringify, stringify1, List.getLastD, List.dropLast]

/-- Claim C2: if after the traversal any requested location remains
unmatched, `Apply` returns the `efft.ReplacementsFailed` error carrying
the file's base name and a sorted list of exactly the unmatched line
numbers, and the file system is byte-for-byte unchanged -- nothing is
written, not even the rewrites of the locations that did match. -/
theorem c2_apply_unmatched_error (fs : FS) (r : Replacer) (fname : String) (stmts : List MStmt)
    (h0 : r.replacements ≠ [])
    (h1 : lookupFS fs fname = some (.ast stmts))
    (h2 : (inspectStmts fname stmts r.replacements).2 ≠ []) :
    ∃ L, Apply fs r fname =
        (fs, ⟨(inspectStmts fname stmts r.replacements).2, r.incomplete⟩,
          some (.replacementsFailed (baseName fname) L))
      ∧ L.Sorted (· ≤ ·)
      ∧ L.Perm ((inspectStmts fname stmts r.replacements).2.map fun q => q.1.line) := by
  refine ⟨_, ?_, sortNat_sorted _, sortNat_perm _⟩
  simp [Apply, h0, h1, h2]

theorem c2_witness :
    ((Replacer.mk [(⟨"d.go", 3⟩, ("new")), (⟨"d.go", 9⟩, ("x"))] []).replacements ≠ []) ∧
    (lookupFS [(("d.go" : String), GoFile.ast [⟨3, 2, .call ("Effect") none⟩])] ("d.go") =
      some (.ast [⟨3, 2, .call ("Effect") none⟩])) ∧
    ((inspectStmts ("d.go") [⟨3, 2, .call ("Effect") none⟩]
        [(⟨"d.go", 3⟩, ("new")), (⟨"d.go", 9⟩, ("x"))]).2 ≠ []) ∧
    (∃ L, Apply [(("d.go" : String), GoFile.ast [⟨3, 2, .call ("Effect") none⟩])]
        ⟨[(⟨"d.go", 3⟩, ("new")), (⟨"d.go", 9⟩, ("x"))], []⟩ ("d.go") =
        ([(("d.go" : String), GoFile.ast [⟨3, 2, .call ("Effect") none⟩])],
          ⟨(inspectStmts ("d.go") [⟨3, 2, .call ("Effect") none⟩]
              [(⟨"d.go", 3⟩, ("new")), (⟨"d.go", 9⟩, ("x"))]).2, []⟩,
          some (.replacementsFailed (baseName ("d.go")) L))
      ∧ L.Sorted (· ≤ ·)
      ∧ L.Perm ((inspectStmts ("d.go") [⟨3, 2, .call ("Effect") none⟩]
          [(⟨"d.go", 3⟩, ("new")), (⟨"d.go", 9⟩, ("x"))]).2.map fun q => q.1.line)) :=
  ⟨by decide, by decide, by decide,
    c2_apply_unmatched_error _ ⟨[(⟨"d.go", 3⟩, ("new")), (⟨"d.go", 9⟩, ("x"))], []⟩ _ _
      (by decide) (by decide) (by decide)⟩

/-- Claim C9: on the unmatched-locations error path the matched locations
have already been deleted from the pending map and are not restored: the
file system is unchanged, yet a location that was requested (`some x`
before) is gone (`none` after) from the replacer `Apply` returns. -/
theorem c9_consumed_not_restored (fs : FS) (r : Replacer) (fname : String) (stmts : List MStmt)
    (loc : Location) (x : String)
    (h0 : r.replacements ≠ [])
    (h1 : lookupFS fs fname = some (.ast stmts))
    (hreq : lookupA r.replacements loc = some x)
    (hmatched : lookupA (inspectStmts fname stmts r.replacements).2 loc = none)
    (h2 : (inspectStmts fname stmts r.replacements).2 ≠ []) :
    ∃ e, Apply fs r fname =
        (fs, ⟨(inspectStmts fname stmts r.replacements).2, r.incomplete⟩, some e)
      ∧ lookupA r.replacements loc = some x
      ∧ lookupA (Apply fs r fname).2.1.replacements loc = none := by
  have happ : Apply fs r fname =
      (fs, ⟨(inspectStmts fname stmts r.replacements).2, r.incomplete⟩,
        some (.replacementsFailed (baseName fname)
          (sortNat ((inspectStmts fname stmts r.replacements).2.map fun q => q.1.line)))) := by
    simp [Apply, h0, h1, h2]
  refine ⟨_, happ, hreq, ?_⟩
  rw [happ]
  exact hmatched

theorem c9_witness :
    ((Replacer.mk [(⟨"e.go", 4⟩, ("v")), (⟨"e.go", 8⟩, ("w"))] []).replacements ≠ []) ∧
    (lookupA (inspectStmts ("e.go") [⟨4, 1, .call ("FatalEffect") none⟩]
        [(⟨"e.go", 4⟩, ("v")), (⟨"e.go", 8⟩, ("w"))]).2 ⟨"e.go", 4⟩ = none) ∧
    (∃ e, Apply [(("e.go" : String), GoFile.ast [⟨4, 1, .call ("FatalEffect") none⟩])]
        ⟨[(⟨"e.go", 4⟩, ("v")), (⟨"e.go", 8⟩, ("w"))], []⟩ ("e.go") =
        ([(("e.go" : String), GoFile.ast [⟨4, 1, .call ("FatalEffect") none⟩])],
          ⟨(inspectStmts ("e.go") [⟨4, 1, .call ("FatalEffect") none⟩]
              [(⟨"e.go", 4⟩, ("v")), (⟨"e.go", 8⟩, ("w"))]).2, []⟩, some e)
      ∧ lookupA [(⟨"e.go", 4⟩, ("v")), (⟨"e.go", 8⟩, ("w"))] ⟨"e.go", 4⟩ = some ("v")
      ∧ lookupA (Apply [(("e.go" : String), GoFile.ast [⟨4, 1, .call ("FatalEffect") none⟩])]
          ⟨[(⟨"e.go", 4⟩, ("v")), (⟨"e.go", 8⟩, ("w"))], []⟩
          ("e.go")).2.1.replacements ⟨"e.go", 4⟩ = none) :=
  ⟨by decide, by decide,
    c9_consumed_not_restored _ ⟨[(⟨"e.go", 4⟩, ("v")), (⟨"e.go", 8⟩, ("w"))], []⟩ _ _
      ⟨"e.go", 4⟩ ("v") (by decide) (by decide) (by decide) (by decide) (by decide)⟩

/-! ## Claim theorems for the `Init` cleanup (the self-exec handoff) -/

/-- Claim C8, counterexample: in update mode with one pending entry and no
pipe yet, the cleanup's whole action trace is: report, start the child,
stream the record -- and return.  There is no wait on the child (and, as
the trace equation shows, no exit-status propagation either), contrary to
the claim that the parent waits for the child and propagates its exit
status. -/
theorem c8_counterexample :
    cleanupTrace ⟨true, false, [], [(⟨"/w/x_test.go", 7⟩, ("v"))]⟩ =
      [.errorf ("efft.WrongExpectations: will update them at end"),
        .startChild ("EFFTESTING_REWRITE=1"),
        .stream ⟨"/w/x_test.go", 7⟩ ("v")]
  ∧ Effect.waitChild ∉ cleanupTrace ⟨true, false, [], [(⟨"/w/x_test.go", 7⟩, ("v"))]⟩ := by
  refine ⟨by decide, by decide⟩

/-- Claim C8 as amended: in update mode with pending entries the cleanup
does start the self-exec child (when no pipe exists yet) and streams every
pending record to it, but it never waits for the child and never
propagates any exit status; the child only acts once the parent's exit
closes the stream. -/
theorem c8_no_wait_amended (st : CleanupState) :
    Effect.waitChild ∉ cleanupTrace st
  ∧ (∀ code, Effect.propagateExit code ∉ cleanupTrace st)
  ∧ (st.updatemode = true → st.pipeExists = false → st.replacements ≠ [] →
      Effect.startChild ("EFFTESTING_REWRITE=1") ∈ cleanupTrace st
      ∧ ∀ p ∈ st.replacements, Effect.stream p.1 p.2 ∈ cleanupTrace st) := by
  refine ⟨?_, ?_, ?_⟩
  · simp only [cleanupTrace]
    split_ifs <;> simp [List.mem_append, List.mem_map]
  · intro code
    simp only [cleanupTrace]
    split_ifs <;> simp [List.mem_append, List.mem_map]
  · intro h1 h2 h3
    have hlen : st.replacements.length ≠ 0 := by
      simpa [List.length_eq_zero] using h3
    have hcond : ¬(st.updatemode = false ∨ st.replacements.length = 0) := by
      simp [h1, hlen]
    constructor
    · simp only [cleanupTrace, if_neg hcond, h2, if_neg Bool.false_ne_true]
      refine List.mem_append_left _ (List.mem_append_right _ ?_)
      simp
    · intro p hp
      simp only [cleanupTrace, if_neg hcond]
      exact List.mem_append_right _ (List.mem_map_of_mem _ hp)

theorem c8_witness :
    Effect.waitChild ∉ cleanupTrace ⟨true, false, [], [(⟨"/w/y_test.go", 5⟩, ("w"))]⟩
  ∧ Effect.startChild ("EFFTESTING_REWRITE=1") ∈
      cleanupTrace ⟨true, false, [], [(⟨"/w/y_test.go", 5⟩, ("w"))]⟩ :=
  ⟨(c8_no_wait_amended ⟨true, false, [], [(⟨"/w/y_test.go", 5⟩, ("w"))]⟩).1,
    ((c8_no_wait_amended ⟨true, false, [], [(⟨"/w/y_test.go", 5⟩, ("w"))]⟩).2.2 rfl rfl
      (by decide)).1⟩

end Efft
